import Mathlib

/-
Verification of the `noted` static-site build script (src/build.ts).

The script converts a directory tree of markdown files into HTML pages and a
generated table-of-contents page. This development is a shallow embedding of
its pure core:

  * `walkEntry` / `walkEntryList`  — the recursive markdown-file discovery
    (`getAllMarkdownFiles`), over an explicit filesystem model `FSEntry`;
  * `mkPageInfo` / `convertMarkdownToHtml` — the per-page conversion
    (`convertMarkdownToHtml`), with the external markdown renderer passed in
    as a function parameter;
  * `firstH1` — the title-extraction regex `/^#\s+(.+)$/m` as an explicit
    backtracking matcher over character lists;
  * `buildTree` / `insertParts` — the TOC tree builder;
  * `renderNode` / `generateTocHtml` — the TOC renderer.

JavaScript's stable `Array.prototype.sort` is embedded as
`List.insertionSort` (a stable sort), and `String.prototype.localeCompare`
as code-point lexicographic comparison `strLe` (the two agree on the
all-ASCII, single-case inputs exercised here). Where the difference is
load-bearing — the real locale collation can tie distinct strings
(ignorable characters, canonical equivalence) while `strLe` cannot — the
collation is instead passed as an explicit external parameter
(`pageLeWith`, `sortPagesWith`, `generateTocHtmlWith`), like the markdown
renderer. Strings are manipulated through their underlying character
lists so that every definition reduces by computation.
-/

namespace Noted

/-- Metadata record for one converted page (interface `PageInfo` in the source). -/
structure PageInfo where
  path : String
  relativePath : String
  title : String
  depth : Nat
deriving DecidableEq, Repr

/-- Node of the TOC navigation tree (object shape `TreeNode` in the source):
a name, a path prefix, a list of children and an optional attached page. -/
inductive TreeNode : Type where
  | mk (name : String) (path : String) (children : List TreeNode) (page : Option PageInfo)

def TreeNode.name : TreeNode → String
  | .mk n _ _ _ => n

def TreeNode.path : TreeNode → String
  | .mk _ p _ _ => p

def TreeNode.children : TreeNode → List TreeNode
  | .mk _ _ cs _ => cs

def TreeNode.page : TreeNode → Option PageInfo
  | .mk _ _ _ pg => pg

/-- Lexicographic code-point comparison of character lists; embeds the
`localeCompare(a, b) <= 0` tests of the source's two comparators. -/
def lexLe : List Char → List Char → Bool
  | [], _ => true
  | _ :: _, [] => false
  | a :: as, b :: bs =>
    if a.toNat < b.toNat then true
    else if b.toNat < a.toNat then false
    else lexLe as bs

/-- String comparison used for both page sorting and child sorting. -/
def strLe (s t : String) : Bool := lexLe s.data t.data

/-- JavaScript `String.prototype.split("/")`: cuts at every `'/'`,
keeping empty pieces. -/
def splitSlashAux : List Char → List Char → List String
  | [], acc => [String.mk acc.reverse]
  | c :: rest, acc =>
    if c = '/' then String.mk acc.reverse :: splitSlashAux rest []
    else splitSlashAux rest (c :: acc)

def splitSlash (s : String) : List String := splitSlashAux s.data []

/-- Source line 129: `page.path.split("/").filter(Boolean)` — the nonempty
segments of an output path. -/
def pathParts (p : String) : List String := (splitSlash p).filter (fun s => s ≠ "")

/-- Suffix test embedding `name.endsWith(".md")`. -/
def strEndsWithMd (n : String) : Bool := ".md".data.isSuffixOf n.data

/-- Embeds `name.startsWith(".")`. -/
def strStartsWithDot (n : String) : Bool :=
  match n.data with
  | [] => false
  | c :: _ => c = '.'

/-- Embeds `relativePath.replace(/\.md$/, ".html")`: a trailing `.md`
becomes `.html`, anything else is left alone. -/
def replaceMdExt (s : String) : String :=
  if ".md".data.isSuffixOf s.data then String.mk (s.data.take (s.data.length - 3) ++ ".html".data)
  else s

/-- Embeds Node's `basename(mdPath, ".md")`: the last `/`-separated
component, with a trailing `.md` removed unless the component is exactly
`.md`. -/
def basenameNoMd (p : String) : String :=
  let base := (splitSlash p).getLastD ""
  if ".md".data.isSuffixOf base.data && base ≠ ".md" then String.mk (base.data.take (base.data.length - 3))
  else base

/-- Character class `\s` of JavaScript regular expressions. -/
def jsWs (c : Char) : Bool :=
  c = ' ' || c = '\t' || c = '\n' || c = '\u000d' || c = '\u000b' || c = '\u000c' ||
  c = ' ' || c = ' ' || (0x2000 ≤ c.toNat && c.toNat ≤ 0x200a) ||
  c = ' ' || c = ' ' || c = ' ' || c = ' ' || c = '　' ||
  c = '﻿'

/-- Line terminators recognised by `^`, `$` (multiline) and excluded by `.`
in JavaScript regular expressions. -/
def isLineTerm (c : Char) : Bool :=
  c = '\n' || c = '\u000d' || c = ' ' || c = ' '

/-- Greedy `(.+)$` starting here: everything up to the next line
terminator. -/
def captureLine (cs : List Char) : List Char := cs.takeWhile (fun c => !isLineTerm c)

/-- Backtracking step of `\s+(.+)$` when the whitespace run reached the end
of the input: give whitespace characters back to `(.+)` from the right,
preferring the greediest (latest) viable start, which must not be a line
terminator. -/
def backtrackWs : List Char → Option (List Char)
  | [] => none
  | c :: rest =>
    match backtrackWs rest with
    | some cap => some cap
    | none => if isLineTerm c then none else some (captureLine (c :: rest))

/-- Attempt of `#\s+(.+)$` at a line start: `#`, then a maximal whitespace
run (at least one character), then the captured group. -/
def tryMatch : List Char → Option String
  | '#' :: rest =>
    let run := rest.takeWhile jsWs
    let after := rest.dropWhile jsWs
    if run.isEmpty then none
    else
      match after with
      | _ :: _ => some (String.mk (captureLine after))
      | [] =>
        match run with
        | [] => none
        | _ :: giveback =>
          match backtrackWs giveback with
          | some cap => some (String.mk cap)
          | none => none
  | _ => none

/-- Scan for the first match of `/^#\s+(.+)$/m`: attempt the pattern at
every line start, left to right. -/
def scanH1 : List Char → Bool → Option String
  | [], _ => none
  | c :: rest, atStart =>
    if atStart then
      match tryMatch (c :: rest) with
      | some t => some t
      | none => scanH1 rest (isLineTerm c)
    else scanH1 rest (isLineTerm c)

/-- Embeds `mdContent.match(/^#\s+(.+)$/m)`, returning the captured group
of the first match. -/
def firstH1 (s : String) : Option String := scanH1 s.data true

/-- Source lines 96-97: title from the first top-level heading, with the
extensionless filename as fallback. -/
def extractTitle (content fallback : String) : String :=
  match firstH1 content with
  | some t => t
  | none => fallback

/-- Fixed page template (`htmlTemplate` in the source); `\x7b`/`\x7d` are
literal braces. -/
def htmlTemplate (title content : String) : String :=
  "<!DOCTYPE html>\n<html lang=\"en\">\n<head>\n    <meta charset=\"UTF-8\">\n    <meta name=\"viewport\" content=\"width=device-width, initial-scale=1.0\">\n    <title>"
    ++ title
    ++ "</title>\n    <style>\n        body \x7b\n            max-width: 800px;\n            margin: 0 auto;\n            padding: 2rem;\n            font-family: system-ui, -apple-system, sans-serif;\n            line-height: 1.6;\n            color: #333;\n        \x7d\n        pre \x7b\n            background: #f4f4f4;\n            padding: 1rem;\n            border-radius: 4px;\n            overflow-x: auto;\n        \x7d\n        code \x7b\n            background: #f4f4f4;\n            padding: 0.2rem 0.4rem;\n            border-radius: 3px;\n        \x7d\n        pre code \x7b\n            background: none;\n            padding: 0;\n        \x7d\n    </style>\n</head>\n<body>\n    "
    ++ content
    ++ "\n</body>\n</html>"

/-- Pure core of `convertMarkdownToHtml`: the `PageInfo` it returns, as a
function of the source-relative path and the raw markdown text. -/
def mkPageInfo (relativePath content : String) : PageInfo :=
  { path := replaceMdExt relativePath
    relativePath := relativePath
    title := extractTitle content (basenameNoMd relativePath)
    depth := (splitSlash relativePath).length - 1 }

/-- Pure core of `convertMarkdownToHtml`: the bytes written to the output
file, with the external markdown renderer passed as `render`. -/
def convertMarkdownToHtml (render : String → String) (relativePath content : String) : String :=
  htmlTemplate (extractTitle content (basenameNoMd relativePath)) (render content)

/-- Filesystem model for the discovery walk: a directory entry is a plain
file or a directory with its own entries. -/
inductive FSEntry : Type where
  | file (name : String)
  | dir (name : String) (entries : List FSEntry)

/-- Skip rule of `getAllMarkdownFiles`: `dist`, `node_modules`, and hidden
entries. -/
def excludedName (n : String) : Bool :=
  n == "dist" || n == "node_modules" || strStartsWithDot n

mutual

/-- One loop iteration of `getAllMarkdownFiles`: an excluded entry
contributes nothing; a directory contributes its recursive results under
its name; a file contributes itself when it ends with `.md`. Paths are
component lists relative to the walk root. -/
def walkEntry : FSEntry → List (List String)
  | .file n => if excludedName n then [] else if strEndsWithMd n then [[n]] else []
  | .dir n es => if excludedName n then [] else (walkEntryList es).map (fun p => n :: p)

/-- Whole loop of `getAllMarkdownFiles` over a directory's entries, in
order. -/
def walkEntryList : List FSEntry → List (List String)
  | [] => []
  | e :: rest => walkEntry e ++ walkEntryList rest

end

/-- Boolean membership test `current.children.find((c) => c.name === part)`
used by the tree builder. -/
def hasChild (nm : String) (cs : List TreeNode) : Bool := cs.any (fun c => c.name = nm)

/-- Update the first child carrying the given name (the one `find`
returns), leaving the rest untouched. -/
def replaceFirst (nm : String) (f : TreeNode → TreeNode) : List TreeNode → List TreeNode
  | [] => []
  | c :: cs => if c.name = nm then f c :: cs else c :: replaceFirst nm f cs

/-- Source lines 128-153, one page: walk the nonempty path segments from
the current node; find-or-create a child per segment, pushing new children
at the end of the list; attach the page only when the final segment's node
is freshly created; descend for non-final segments even into an existing
node. `pre` is the path prefix accumulated so far (`fullPathSoFar`). -/
def insertParts (page : PageInfo) : List String → String → TreeNode → TreeNode
  | [], _, t => t
  | part :: rest, pre, .mk n p cs pg =>
    let full := if pre = "" then part else pre ++ "/" ++ part
    if hasChild part cs then
      if rest.isEmpty then .mk n p cs pg
      else .mk n p (replaceFirst part (insertParts page rest full) cs) pg
    else
      let newChild := TreeNode.mk part full [] (if rest.isEmpty then some page else none)
      .mk n p (cs ++ [insertParts page rest full newChild]) pg

/-- Synthetic root (`name: "Project", path: "", children: [], page:
undefined`). -/
def rootInit : TreeNode := .mk "Project" "" [] none

/-- Tree Builder: fold every page's output path into the root. -/
def buildTree (pages : List PageInfo) : TreeNode :=
  pages.foldl (fun t pg => insertParts pg (pathParts pg.path) "" t) rootInit

/-- Page comparator of source line 118: `a.path.localeCompare(b.path)`. -/
def pageLe (a b : PageInfo) : Prop := strLe a.path b.path = true

instance : DecidableRel pageLe := fun a b => by unfold pageLe; infer_instance

/-- Source line 118: `pages.sort((a, b) => a.path.localeCompare(b.path))`,
embedded as a stable sort. -/
def sortPages (pages : List PageInfo) : List PageInfo := pages.insertionSort pageLe

/-- Child comparator of `renderNode` (source lines 171-178) as a boolean
`le`: directories (no page) first, then files, ties within a category by
name. -/
def childLeB (a b : TreeNode) : Bool :=
  if a.page.isNone && !b.page.isNone then true
  else if !a.page.isNone && b.page.isNone then false
  else strLe a.name b.name

def childLe (a b : TreeNode) : Prop := childLeB a b = true

instance : DecidableRel childLe := fun a b => by unfold childLe; infer_instance

/-- The sort applied to a directory's children before rendering. -/
def sortChildren (cs : List TreeNode) : List TreeNode := cs.insertionSort childLe

/-- File fragment of `renderNode`. -/
def fileLi (page : PageInfo) : String :=
  "\n        <li>\n          <a href=\""
    ++ page.path
    ++ "\" class=\"file-link\">\n            <span class=\"file-icon\"></span>\n            <span>"
    ++ page.title
    ++ "</span>\n          </a>\n        </li>"

/-- Folder fragment of `renderNode`. -/
def folderLi (name childHtml : String) : String :=
  "\n        <li>\n          <div class=\"folder\" data-folder>\n            <span class=\"folder-icon\"></span>\n            <span class=\"folder-name\">"
    ++ name
    ++ "</span>\n          </div>\n          <ul class=\"folder-content\">\n            "
    ++ childHtml
    ++ "\n          </ul>\n        </li>"

/-- Source lines 156-193: a node with a page renders as a file link; a node
without one renders as a folder whose children are sorted with `childLe`
and concatenated. -/
def renderNode : TreeNode → String
  | .mk n _p cs pg =>
    match pg with
    | some page => fileLi page
    | none =>
      let inner := String.join ((sortChildren cs).attach.map (fun c => renderNode c.1))
      folderLi n inner
termination_by t => sizeOf t
decreasing_by
  simp_wf
  have := List.sizeOf_lt_of_mem ((List.mem_insertionSort childLe).mp c.2)
  omega

/-- Source line 195: `root.children.map(renderNode).join("")` — the root's
children are rendered in list order, without sorting them first. -/
def innerTreeHtml (root : TreeNode) : String := String.join (root.children.map renderNode)

/-- Navigation-page template of `generateTocHtml` (static head, styles and
client script); `\x7b`/`\x7d` are literal braces. -/
def tocPage (innerTree : String) (count : Nat) : String :=
  "\n<!doctype html>\n<html lang=\"en\">\n<head>\n  <meta charset=\"UTF-8\" />\n  <meta name=\"viewport\" content=\"width=device-width, initial-scale=1.0\" />\n  <title>toc</title>\n  <style>\n    * \x7b margin: 0; padding: 0; box-sizing: border-box; \x7d\n    body \x7b\n      font-family: -apple-system, BlinkMacSystemFont, \"Segoe UI\", Roboto, Oxygen, Ubuntu, Cantarell, sans-serif;\n      background-color: #f3f4f6;\n      padding: 2rem;\n    \x7d\n    .container \x7b\n      max-width: 800px;\n      margin: 0 auto;\n      background-color: white;\n      border-radius: 0.5rem;\n      box-shadow: 0 4px 6px rgba(0, 0, 0, 0.1);\n      padding: 1.5rem;\n    \x7d\n    h1 \x7b\n      font-size: 1.5rem;\n      font-weight: bold;\n      margin-bottom: 1.5rem;\n      color: #1f2937;\n    \x7d\n    ul \x7b list-style: none; \x7d\n    ul ul \x7b margin-left: 1.5rem; margin-top: 0.25rem; \x7d\n    .folder \x7b\n      display: flex;\n      align-items: center;\n      padding: 0.5rem;\n      cursor: pointer;\n      border-radius: 0.25rem;\n      user-select: none;\n    \x7d\n    .folder:hover \x7b background-color: #f3f4f6; \x7d\n    .folder-icon \x7b margin-right: 0.5rem; font-size: 1rem; \x7d\n    .folder-icon::before \x7b content: \"📁\"; \x7d\n    .folder.open .folder-icon::before \x7b content: \"📂\"; \x7d\n    .folder-name \x7b font-weight: 500; color: #374151; \x7d\n    .folder-content \x7b\n      max-height: 0;\n      overflow: hidden;\n      transition: max-height 0.3s ease-out;\n    \x7d\n    .folder-content.open \x7b\n      max-height: 2000px;\n      transition: max-height 0.5s ease-in;\n    \x7d\n    .file-link \x7b\n      display: flex;\n      align-items: center;\n      padding: 0.5rem;\n      text-decoration: none;\n      color: #2563eb;\n      border-radius: 0.25rem;\n    \x7d\n    .file-link:hover \x7b\n      background-color: #eff6ff;\n      color: #1d4ed8;\n    \x7d\n    .file-icon \x7b margin-right: 0.5rem; \x7d\n    .file-icon::before \x7b content: \"📄\"; \x7d\n    .total-pages \x7b\n      margin-top: 1rem;\n      color: #6b7280;\n      font-size: 0.875rem;\n    \x7d\n  </style>\n</head>\n<body>\n  <div class=\"container\">\n    <h1>Directory Tree</h1>\n    <ul id=\"root\">\n      "
    ++ innerTree
    ++ "\n    </ul>\n    <p class=\"total-pages\">Total pages: <span id=\"total-pages\">"
    ++ toString count
    ++ "</span></p>\n  </div>\n\n  <script>\n    const folders = document.querySelectorAll(\"[data-folder]\");\n    folders.forEach((folder) => \x7b\n      folder.addEventListener(\"click\", function (e) \x7b\n        e.stopPropagation();\n        const content = this.nextElementSibling;\n        if (content && content.classList.contains(\"folder-content\")) \x7b\n          this.classList.toggle(\"open\");\n          content.classList.toggle(\"open\");\n        \x7d\n      \x7d);\n    \x7d);\n\n    const fileLinks = document.querySelectorAll(\".file-link\");\n    fileLinks.forEach((link) => \x7b\n      link.addEventListener(\"click\", function (e) \x7b\n        // Let the browser handle navigation (since href is real)\n        // But you can still log if you want\n        const fileName = this.querySelector(\"span:last-child\").textContent;\n        console.log(\"Navigating to:\", fileName);\n      \x7d);\n    \x7d);\n  </script>\n</body>\n</html>"

/-- The tree `generateTocHtml` builds: pages sorted by output path, then
folded into the synthetic root. -/
def tocTree (pages : List PageInfo) : TreeNode := buildTree (sortPages pages)

/-- Whole TOC generator (source lines 116-280). -/
def generateTocHtml (pages : List PageInfo) : String :=
  tocPage (innerTreeHtml (tocTree pages)) pages.length

/-- Build orchestrator (`build`, source lines 307-332), restricted to its
pure file-writing plan: the list of (output path, content) pairs written,
given the filesystem, the external renderer and the file contents. An
empty discovery result short-circuits before any conversion, tree build or
TOC render. -/
def buildOutputs (render : String → String) (readF : List String → String)
    (entries : List FSEntry) : List (List String × String) :=
  let mdFiles := walkEntryList entries
  if mdFiles.isEmpty then []
  else
    let outs := mdFiles.map (fun p =>
      let rel := String.intercalate "/" p
      (pathParts (replaceMdExt rel), convertMarkdownToHtml render rel (readF p)))
    let pages := mdFiles.map (fun p => mkPageInfo (String.intercalate "/" p) (readF p))
    outs ++ [(["toc.html"], generateTocHtml pages)]


/-! ### Order facts about the embedded comparators -/

theorem char_eq_of_toNat_eq {a b : Char} (h : a.toNat = b.toNat) : a = b := by
  apply Char.ext
  apply UInt32.ext
  simpa [Char.toNat, UInt32.toNat] using h

theorem lexLe_cons {a b : Char} {as bs : List Char} :
    lexLe (a :: as) (b :: bs) = true ↔
      (a.toNat < b.toNat ∨ (a.toNat = b.toNat ∧ lexLe as bs = true)) := by
  simp only [lexLe]
  split_ifs with h1 h2
  · simp [h1]
  · constructor
    · intro h; simp at h
    · rintro (h | ⟨h, _⟩) <;> omega
  · have he : a.toNat = b.toNat := by omega
    simp [he]

theorem lexLe_total (as bs : List Char) : lexLe as bs = true ∨ lexLe bs as = true := by
  induction as generalizing bs with
  | nil => left; rfl
  | cons a as ih =>
    cases bs with
    | nil => right; rfl
    | cons b bs =>
      rcases Nat.lt_trichotomy a.toNat b.toNat with h | h | h
      · left; rw [lexLe_cons]; exact Or.inl h
      · rcases ih bs with hr | hr
        · left; rw [lexLe_cons]; exact Or.inr ⟨h, hr⟩
        · right; rw [lexLe_cons]; exact Or.inr ⟨h.symm, hr⟩
      · right; rw [lexLe_cons]; exact Or.inl h

theorem lexLe_trans {as bs cs : List Char} (h1 : lexLe as bs = true)
    (h2 : lexLe bs cs = true) : lexLe as cs = true := by
  induction as generalizing bs cs with
  | nil => rfl
  | cons a as ih =>
    cases bs with
    | nil => simp [lexLe] at h1
    | cons b bs =>
      cases cs with
      | nil => simp [lexLe] at h2
      | cons c cs =>
        rw [lexLe_cons] at h1 h2 ⊢
        rcases h1 with h1 | ⟨he1, hr1⟩
        · rcases h2 with h2 | ⟨he2, _⟩
          · exact Or.inl (by omega)
          · exact Or.inl (by omega)
        · rcases h2 with h2 | ⟨he2, hr2⟩
          · exact Or.inl (by omega)
          · exact Or.inr ⟨by omega, ih hr1 hr2⟩

theorem lexLe_antisymm {as bs : List Char} (h1 : lexLe as bs = true)
    (h2 : lexLe bs as = true) : as = bs := by
  induction as generalizing bs with
  | nil =>
    cases bs with
    | nil => rfl
    | cons b bs => simp [lexLe] at h2
  | cons a as ih =>
    cases bs with
    | nil => simp [lexLe] at h1
    | cons b bs =>
      rw [lexLe_cons] at h1 h2
      rcases h1 with h1 | ⟨he1, hr1⟩
      · rcases h2 with h2 | ⟨he2, _⟩ <;> omega
      · rcases h2 with h2 | ⟨he2, hr2⟩
        · omega
        · rw [char_eq_of_toNat_eq he1, ih hr1 hr2]

theorem strLe_total (s t : String) : strLe s t = true ∨ strLe t s = true :=
  lexLe_total s.data t.data

theorem strLe_trans {s t u : String} (h1 : strLe s t = true) (h2 : strLe t u = true) :
    strLe s u = true :=
  lexLe_trans h1 h2

theorem strLe_antisymm {s t : String} (h1 : strLe s t = true) (h2 : strLe t s = true) :
    s = t :=
  String.ext (lexLe_antisymm h1 h2)

instance : IsTotal PageInfo pageLe :=
  ⟨fun a b => strLe_total a.path b.path⟩

instance : IsTrans PageInfo pageLe :=
  ⟨fun _ _ _ h1 h2 => strLe_trans h1 h2⟩

theorem childLe_total (a b : TreeNode) : childLe a b ∨ childLe b a := by
  unfold childLe childLeB
  cases ha : a.page.isNone <;> cases hb : b.page.isNone <;> simp [ha, hb]
  · exact strLe_total a.name b.name
  · exact strLe_total a.name b.name

theorem childLe_trans {a b c : TreeNode} (h1 : childLe a b) (h2 : childLe b c) :
    childLe a c := by
  unfold childLe childLeB at h1 h2 ⊢
  cases ha : a.page.isNone <;> cases hb : b.page.isNone <;> cases hc : c.page.isNone <;>
    simp [ha, hb, hc] at h1 h2 ⊢ <;>
    exact strLe_trans h1 h2

instance : IsTotal TreeNode childLe :=
  ⟨childLe_total⟩

instance : IsTrans TreeNode childLe :=
  ⟨fun _ _ _ h1 h2 => childLe_trans h1 h2⟩


/-! ### Discovery walk: every result is a markdown file outside excluded directories -/

/-- C5: every path returned by the discovery walk ends in a `.md` filename,
and no component of the path is `dist`, `node_modules`, or starts with a
dot. -/
theorem discovery_markdown_only (entries : List FSEntry) (p : List String)
    (hp : p ∈ walkEntryList entries) :
    (∃ init nm, p = init ++ [nm] ∧ strEndsWithMd nm = true)
    ∧ (∀ c ∈ p, excludedName c = false) := by
  refine walkEntryList.induct
    (fun e => ∀ q ∈ walkEntry e,
      (∃ init nm, q = init ++ [nm] ∧ strEndsWithMd nm = true)
      ∧ (∀ c ∈ q, excludedName c = false))
    (fun es => ∀ q ∈ walkEntryList es,
      (∃ init nm, q = init ++ [nm] ∧ strEndsWithMd nm = true)
      ∧ (∀ c ∈ q, excludedName c = false))
    ?_ ?_ ?_ ?_ ?_ ?_ ?_ entries p hp
  · intro n hex q hq
    simp [walkEntry, hex] at hq
  · intro n hex hmd q hq
    simp [walkEntry, hex, hmd] at hq
    subst hq
    refine ⟨⟨[], n, rfl, hmd⟩, ?_⟩
    intro c hc
    rw [List.mem_singleton] at hc
    subst hc
    simpa using hex
  · intro n hex hmd q hq
    simp [walkEntry, hex, hmd] at hq
  · intro n es hex q hq
    simp [walkEntry, hex] at hq
  · intro n es hex ih q hq
    simp [walkEntry, hex] at hq
    obtain ⟨q0, hq0, rfl⟩ := hq
    obtain ⟨⟨init, nm, rfl, hnm⟩, hcomp⟩ := ih q0 hq0
    refine ⟨⟨n :: init, nm, rfl, hnm⟩, ?_⟩
    intro c hc
    rcases List.mem_cons.mp hc with rfl | hc
    · simpa using hex
    · exact hcomp c hc
  · intro q hq
    rw [walkEntryList] at hq
    simp at hq
  · intro e rest ih1 ih2 q hq
    rw [walkEntryList, List.mem_append] at hq
    rcases hq with hq | hq
    · exact ih1 q hq
    · exact ih2 q hq

/-- Witness for C5 at a concrete two-level filesystem. -/
theorem discovery_markdown_only_witness :
    (["sub", "c.md"] ∈ walkEntryList [.file "a.md", .dir "sub" [.file "c.md"]])
    ∧ ((∃ init nm, ["sub", "c.md"] = init ++ [nm] ∧ strEndsWithMd nm = true)
        ∧ (∀ c ∈ ["sub", "c.md"], excludedName c = false)) :=
  ⟨by simp [walkEntryList, walkEntry, excludedName, strEndsWithMd, strStartsWithDot],
   discovery_markdown_only [.file "a.md", .dir "sub" [.file "c.md"]] ["sub", "c.md"]
     (by simp [walkEntryList, walkEntry, excludedName, strEndsWithMd, strStartsWithDot])⟩

/-! ### Build orchestrator: empty discovery is a successful no-op -/

/-- C6: when discovery finds no markdown files the build writes nothing —
no page file and no `toc.html` — and skips conversion, tree build and TOC
rendering (the output plan is empty). -/
theorem no_markdown_build_is_noop (render : String → String)
    (readF : List String → String) (entries : List FSEntry)
    (h : walkEntryList entries = []) :
    buildOutputs render readF entries = [] := by
  unfold buildOutputs
  rw [h]
  rfl

/-- Witness for C6: a filesystem whose only markdown file is inside the
excluded `dist` directory. -/
theorem no_markdown_build_is_noop_witness :
    walkEntryList [.dir "dist" [.file "b.md"], .file "readme.txt"] = []
    ∧ buildOutputs (fun s => s) (fun _ => "")
        [.dir "dist" [.file "b.md"], .file "readme.txt"] = [] :=
  ⟨by simp [walkEntryList, walkEntry, excludedName, strEndsWithMd, strStartsWithDot]; decide,
   no_markdown_build_is_noop (fun s => s) (fun _ => "")
       [.dir "dist" [.file "b.md"], .file "readme.txt"]
     (by simp [walkEntryList, walkEntry, excludedName, strEndsWithMd, strStartsWithDot]; decide)⟩

/-! ### Title extraction -/

/-- C4: the page title is the captured group of the first match of
`/^#\s+(.+)$/m` anywhere in the raw text (`firstH1`), with the
extensionless filename as fallback; `"# Hello World\nBody text"` yields
`"Hello World"`, a heading on a later line is still found, and a text with
no heading falls back to the filename without `.md`. -/
theorem title_from_first_heading (content rel fallback : String) :
    (mkPageInfo rel content).title = (firstH1 content).getD (basenameNoMd rel)
    ∧ extractTitle content fallback = (firstH1 content).getD fallback
    ∧ extractTitle "# Hello World\nBody text" fallback = "Hello World"
    ∧ extractTitle "Body first\n\n# Later Heading\ntail" fallback = "Later Heading"
    ∧ extractTitle "no heading here" fallback = fallback
    ∧ (mkPageInfo "notes/guide.md" "plain body").title = "guide" := by
  refine ⟨?_, ?_, rfl, rfl, rfl, rfl⟩ <;>
    · simp only [mkPageInfo, extractTitle]
      cases h : firstH1 content <;> simp [h]

/-! ### Depth computation -/

/-- C7: the recorded depth is the number of `/`-separated segments of the
source-relative path minus one; `"x/y/z.md"` has depth 2. -/
theorem depth_counts_separators (relativePath content : String) :
    (mkPageInfo relativePath content).depth = (splitSlash relativePath).length - 1
    ∧ (mkPageInfo "x/y/z.md" content).depth = 2 :=
  ⟨rfl, rfl⟩

/-! ### Conversion determinism -/

/-- C9: with the external renderer modelled as a fixed function, page
conversion is a pure function of the source path and text: equal inputs
give byte-identical output file contents and equal `PageInfo` records. -/
theorem conversion_deterministic (render : String → String)
    (rel content rel' content' : String) (h1 : rel = rel') (h2 : content = content') :
    convertMarkdownToHtml render rel content = convertMarkdownToHtml render rel' content'
    ∧ mkPageInfo rel content = mkPageInfo rel' content' := by
  subst h1
  subst h2
  exact ⟨rfl, rfl⟩

/-- Witness for C9 at a concrete page. -/
theorem conversion_deterministic_witness :
    convertMarkdownToHtml (fun s => s) "a.md" "# T\nbody"
        = convertMarkdownToHtml (fun s => s) "a.md" "# T\nbody"
    ∧ mkPageInfo "a.md" "# T\nbody" = mkPageInfo "a.md" "# T\nbody" :=
  conversion_deterministic (fun s => s) "a.md" "# T\nbody" "a.md" "# T\nbody" rfl rfl

/-! ### Empty paths contribute nothing to the tree -/

/-- C8: a page whose output path has no nonempty segment is silently
dropped by the tree builder: the built tree is the same with or without
it, wherever it sits in the list. -/
theorem empty_path_adds_no_node (l1 l2 : List PageInfo) (p : PageInfo)
    (h : pathParts p.path = []) :
    buildTree (l1 ++ p :: l2) = buildTree (l1 ++ l2) := by
  unfold buildTree
  rw [List.foldl_append, List.foldl_append, List.foldl_cons, h]
  rfl

/-- Witness for C8: the empty output path between two ordinary pages. -/
theorem empty_path_adds_no_node_witness :
    pathParts (PageInfo.mk "" "" "empty" 0).path = []
    ∧ buildTree [⟨"a.html", "a.md", "a", 0⟩, ⟨"", "", "empty", 0⟩, ⟨"b.html", "b.md", "b", 0⟩]
        = buildTree [⟨"a.html", "a.md", "a", 0⟩, ⟨"b.html", "b.md", "b", 0⟩] :=
  ⟨rfl, empty_path_adds_no_node [⟨"a.html", "a.md", "a", 0⟩] [⟨"b.html", "b.md", "b", 0⟩]
    ⟨"", "", "empty", 0⟩ rfl⟩


/-! ### Shape of the tree for the worked example -/

theorem join_two (a b : String) : String.join [a, b] = a ++ b := by
  simp [String.join]

/-- C2: for pages `"a/b.html"`, `"a/c.html"`, `"d.html"` the generator's
tree is a root with a directory `"a"` (holding file nodes `"b.html"` and
`"c.html"`) followed by a file node `"d.html"`, and the rendered TOC body
is the fragment for `"a"` followed by the fragment for `"d.html"`. -/
theorem toc_tree_shape_example :
    tocTree [⟨"a/b.html", "a/b.md", "b", 1⟩, ⟨"a/c.html", "a/c.md", "c", 1⟩,
        ⟨"d.html", "d.md", "d", 0⟩]
      = TreeNode.mk "Project" ""
          [TreeNode.mk "a" "a"
            [TreeNode.mk "b.html" "a/b.html" [] (some ⟨"a/b.html", "a/b.md", "b", 1⟩),
             TreeNode.mk "c.html" "a/c.html" [] (some ⟨"a/c.html", "a/c.md", "c", 1⟩)] none,
           TreeNode.mk "d.html" "d.html" [] (some ⟨"d.html", "d.md", "d", 0⟩)] none
    ∧ innerTreeHtml (tocTree [⟨"a/b.html", "a/b.md", "b", 1⟩, ⟨"a/c.html", "a/c.md", "c", 1⟩,
        ⟨"d.html", "d.md", "d", 0⟩])
      = renderNode (TreeNode.mk "a" "a"
            [TreeNode.mk "b.html" "a/b.html" [] (some ⟨"a/b.html", "a/b.md", "b", 1⟩),
             TreeNode.mk "c.html" "a/c.html" [] (some ⟨"a/c.html", "a/c.md", "c", 1⟩)] none)
        ++ renderNode (TreeNode.mk "d.html" "d.html" [] (some ⟨"d.html", "d.md", "d", 0⟩)) := by
  refine ⟨rfl, ?_⟩
  have h1 : (tocTree [⟨"a/b.html", "a/b.md", "b", 1⟩, ⟨"a/c.html", "a/c.md", "c", 1⟩,
        ⟨"d.html", "d.md", "d", 0⟩]).children
      = [TreeNode.mk "a" "a"
            [TreeNode.mk "b.html" "a/b.html" [] (some ⟨"a/b.html", "a/b.md", "b", 1⟩),
             TreeNode.mk "c.html" "a/c.html" [] (some ⟨"a/c.html", "a/c.md", "c", 1⟩)] none,
         TreeNode.mk "d.html" "d.html" [] (some ⟨"d.html", "d.md", "d", 0⟩)] := rfl
  rw [innerTreeHtml, h1, List.map_cons, List.map_cons, List.map_nil]
  exact join_two _ _


/-! ### Child ordering in the rendered TOC -/

/-- C1 (amended): at every directory node rendered through `renderNode` —
all directory nodes strictly below the root — the children are emitted
with directories before files and, within each category, in `strLe` name
order (the embedding of locale comparison); in particular sibling files
`zeta.html` and `alpha.html` of the same directory render with
`alpha.html` first. The synthetic root's children are excluded: see the
counterexample. -/
theorem children_sorted_dirs_first (cs : List TreeNode) :
    (sortChildren cs).Pairwise (fun a b =>
      (a.page.isNone = true ∧ b.page.isNone = false)
      ∨ (a.page.isNone = b.page.isNone ∧ strLe a.name b.name = true))
    ∧ (tocTree [⟨"d/zeta.html", "d/zeta.md", "z", 1⟩,
          ⟨"d/alpha.html", "d/alpha.md", "a", 1⟩]).children.map
        (fun c => (sortChildren c.children).map TreeNode.name)
      = [["alpha.html", "zeta.html"]] := by
  refine ⟨?_, rfl⟩
  refine List.Pairwise.imp ?_ (List.sorted_insertionSort childLe cs)
  intro a b hab
  unfold childLe childLeB at hab
  cases ha : a.page.isNone <;> cases hb : b.page.isNone <;>
    simp [ha, hb] at hab ⊢ <;> exact hab

/-- Counterexample for C1: with pages `"a.html"` and `"b/c.html"` the
root's children are rendered in insertion order — the file `"a.html"`
first, the directory `"b"` second — so at the synthetic root directory
nodes do not come before file nodes. -/
theorem root_children_unsorted_counterexample :
    (tocTree [⟨"a.html", "a.md", "a", 0⟩, ⟨"b/c.html", "b/c.md", "c", 1⟩]).children.map
        (fun c => c.page.isNone) = [false, true]
    ∧ ¬ ((tocTree [⟨"a.html", "a.md", "a", 0⟩,
          ⟨"b/c.html", "b/c.md", "c", 1⟩]).children.Pairwise
        (fun a b => b.page.isNone = true → a.page.isNone = true)) := by
  have hc : (tocTree [⟨"a.html", "a.md", "a", 0⟩, ⟨"b/c.html", "b/c.md", "c", 1⟩]).children
      = [TreeNode.mk "a.html" "a.html" [] (some ⟨"a.html", "a.md", "a", 0⟩),
         TreeNode.mk "b" "b"
           [TreeNode.mk "c.html" "b/c.html" [] (some ⟨"b/c.html", "b/c.md", "c", 1⟩)] none] := rfl
  refine ⟨rfl, ?_⟩
  rw [hc]
  intro h
  have h2 := (List.pairwise_cons.mp h).1 _ (List.mem_cons_self _ _)
  have h3 := h2 rfl
  simp [TreeNode.page] at h3


/-! ### Permutation invariance of the rendered TOC -/

/-- Page comparator of source line 118 with the locale collation `cmp`
passed as a parameter: `localeCompare` is an external collaborator (like
the markdown renderer), and `cmp a b` embeds `a.localeCompare(b) <= 0`. -/
def pageLeWith (cmp : String → String → Bool) (a b : PageInfo) : Prop :=
  cmp a.path b.path = true

instance (cmp : String → String → Bool) : DecidableRel (pageLeWith cmp) := fun a b => by
  unfold pageLeWith
  infer_instance

/-- Source line 118 (`pages.sort(...)`, a stable sort) with the collation
as parameter. -/
def sortPagesWith (cmp : String → String → Bool) (pages : List PageInfo) : List PageInfo :=
  pages.insertionSort (pageLeWith cmp)

/-- The generator's tree with the collation as parameter. -/
def tocTreeWith (cmp : String → String → Bool) (pages : List PageInfo) : TreeNode :=
  buildTree (sortPagesWith cmp pages)

/-- Whole TOC generator with the collation as parameter. -/
def generateTocHtmlWith (cmp : String → String → Bool) (pages : List PageInfo) : String :=
  tocPage (innerTreeHtml (tocTreeWith cmp pages)) pages.length

/-- Two lists sorted under the collation that are permutations of each
other, have pairwise distinct paths, and whose paths the collation never
ties, are equal (stable-sort uniqueness under separating keys). -/
theorem sorted_unique_of_sep (cmp : String → String → Bool) :
    ∀ {l1 l2 : List PageInfo}, l1.Perm l2 →
    l1.Pairwise (pageLeWith cmp) → l2.Pairwise (pageLeWith cmp) →
    l1.Pairwise (fun a b => a.path ≠ b.path) →
    (∀ a b, a ∈ l1 → b ∈ l1 → cmp a.path b.path = true → cmp b.path a.path = true →
      a.path = b.path) →
    l1 = l2 := by
  intro l1
  induction l1 with
  | nil =>
    intro l2 hp _ _ _ _
    exact (hp.symm.eq_nil).symm
  | cons a t1 ih =>
    intro l2 hp hs1 hs2 hd hsep
    cases l2 with
    | nil => simpa using hp.eq_nil
    | cons b t2 =>
      have hmem_b : b ∈ a :: t1 := hp.mem_iff.mpr (List.mem_cons_self b t2)
      rcases List.mem_cons.mp hmem_b with hba | hbt1
      · subst hba
        have ht : t1.Perm t2 := hp.cons_inv
        rw [ih ht (List.pairwise_cons.mp hs1).2 (List.pairwise_cons.mp hs2).2
          (List.pairwise_cons.mp hd).2
          (fun x y hx hy => hsep x y (List.mem_cons_of_mem _ hx) (List.mem_cons_of_mem _ hy))]
      · exfalso
        have hne := (List.pairwise_cons.mp hd).1 b hbt1
        have hab := (List.pairwise_cons.mp hs1).1 b hbt1
        have hmem_a : a ∈ b :: t2 := hp.mem_iff.mp (List.mem_cons_self a t1)
        rcases List.mem_cons.mp hmem_a with hab2 | hat2
        · exact hne (congrArg PageInfo.path hab2)
        · have hba := (List.pairwise_cons.mp hs2).1 a hat2
          exact hne (hsep a b (List.mem_cons_self a t1) (List.mem_cons_of_mem a hbt1) hab hba)

/-- C10 (amended): with the locale collation modelled as an arbitrary
total, transitive external comparator, the generated TOC HTML is
invariant under permutation of a page list with pairwise distinct output
paths on which the collation never ties two distinct paths. The
separation hypothesis is forced — the real `localeCompare` can return 0
on distinct strings — see the counterexample. -/
theorem toc_permutation_invariant_collation (cmp : String → String → Bool)
    (htot : ∀ a b : String, cmp a b = true ∨ cmp b a = true)
    (htrans : ∀ a b c : String, cmp a b = true → cmp b c = true → cmp a c = true)
    (p1 p2 : List PageInfo) (hperm : p1.Perm p2)
    (hd : p1.Pairwise (fun a b => a.path ≠ b.path))
    (hsep : ∀ a b, a ∈ p1 → b ∈ p1 → cmp a.path b.path = true → cmp b.path a.path = true →
      a.path = b.path) :
    generateTocHtmlWith cmp p1 = generateTocHtmlWith cmp p2 := by
  haveI : IsTotal PageInfo (pageLeWith cmp) := ⟨fun a b => htot a.path b.path⟩
  haveI : IsTrans PageInfo (pageLeWith cmp) := ⟨fun a b c h1 h2 => htrans _ _ _ h1 h2⟩
  have hs : sortPagesWith cmp p1 = sortPagesWith cmp p2 := by
    refine sorted_unique_of_sep cmp
      ((List.perm_insertionSort (pageLeWith cmp) p1).trans
        (hperm.trans (List.perm_insertionSort (pageLeWith cmp) p2).symm))
      (List.sorted_insertionSort (pageLeWith cmp) p1)
      (List.sorted_insertionSort (pageLeWith cmp) p2)
      ?_ ?_
    · exact ((List.perm_insertionSort (pageLeWith cmp) p1).pairwise_iff
        (by intro x y h e; exact h e.symm)).mpr hd
    · intro a b ha hb
      exact hsep a b ((List.mem_insertionSort _).mp ha) ((List.mem_insertionSort _).mp hb)
  unfold generateTocHtmlWith tocTreeWith
  rw [hs, hperm.length_eq]

/-- Witness for C10 at the code-point collation `strLe`, which never ties
distinct strings, and two concrete swapped pages. -/
theorem toc_permutation_invariant_collation_witness :
    generateTocHtmlWith strLe [⟨"a.html", "a.md", "a", 0⟩, ⟨"b.html", "b.md", "b", 0⟩]
      = generateTocHtmlWith strLe [⟨"b.html", "b.md", "b", 0⟩, ⟨"a.html", "a.md", "a", 0⟩] :=
  toc_permutation_invariant_collation strLe strLe_total
    (fun _ _ _ h1 h2 => strLe_trans h1 h2)
    [⟨"a.html", "a.md", "a", 0⟩, ⟨"b.html", "b.md", "b", 0⟩]
    [⟨"b.html", "b.md", "b", 0⟩, ⟨"a.html", "a.md", "a", 0⟩]
    (List.Perm.swap _ _ _) (by decide)
    (fun a b _ _ h1 h2 => strLe_antisymm h1 h2)

/-- Removal of characters the default locale collation treats as fully
ignorable (here U+200B ZERO WIDTH SPACE): `"a\u200Bb".localeCompare("ab")`
is `0` although the strings differ. -/
def stripIgnorable (s : String) : String :=
  String.mk (s.data.filter (fun c => c ≠ '\u200b'))

theorem strAppend_cancel_right {a b c : String} (h : a ++ c = b ++ c) : a = b := by
  have hd : a.data ++ c.data = b.data ++ c.data := congrArg String.data h
  exact String.ext (List.append_cancel_right hd)

theorem strAppend_cancel_left {a b c : String} (h : c ++ a = c ++ b) : a = b := by
  have hd : c.data ++ a.data = c.data ++ b.data := congrArg String.data h
  exact String.ext (List.append_cancel_left hd)

/-- The navigation-page template determines its tree fragment: two
renderings with the same page count and equal full pages have equal inner
markup. -/
theorem tocPage_inner_inj {a b : String} {n : Nat} (h : tocPage a n = tocPage b n) :
    a = b := by
  unfold tocPage at h
  have h1 := strAppend_cancel_right h
  have h2 := strAppend_cancel_right h1
  have h3 := strAppend_cancel_right h2
  exact strAppend_cancel_left h3

/-- A locale collation with an ignorable character: total and transitive,
but it ties the two distinct paths of the counterexample. -/
def zwspLe (a b : String) : Bool := strLe (stripIgnorable a) (stripIgnorable b)

theorem zwspLe_total (a b : String) : zwspLe a b = true ∨ zwspLe b a = true :=
  strLe_total _ _

theorem zwspLe_trans {a b c : String} (h1 : zwspLe a b = true) (h2 : zwspLe b c = true) :
    zwspLe a c = true :=
  strLe_trans h1 h2

/-- Counterexample for C10 as stated: under a collation that, like the
default locale comparison, ignores U+200B, the distinct paths
`"a\u200Bb.html"` and `"ab.html"` compare equal in both directions; the
stable sort keeps them in input order, so the two permutations of the
same two pages render different TOC HTML. -/
theorem toc_collation_tie_counterexample :
    zwspLe "a\u200bb.html" "ab.html" = true
    ∧ zwspLe "ab.html" "a\u200bb.html" = true
    ∧ ("a\u200bb.html" : String) ≠ "ab.html"
    ∧ List.Perm
        [(⟨"a\u200bb.html", "a\u200bb.md", "z", 0⟩ : PageInfo), ⟨"ab.html", "ab.md", "a", 0⟩]
        [⟨"ab.html", "ab.md", "a", 0⟩, ⟨"a\u200bb.html", "a\u200bb.md", "z", 0⟩]
    ∧ generateTocHtmlWith zwspLe
        [⟨"a\u200bb.html", "a\u200bb.md", "z", 0⟩, ⟨"ab.html", "ab.md", "a", 0⟩]
      ≠ generateTocHtmlWith zwspLe
        [⟨"ab.html", "ab.md", "a", 0⟩, ⟨"a\u200bb.html", "a\u200bb.md", "z", 0⟩] := by
  refine ⟨by decide, by decide, by decide, List.Perm.swap _ _ _, ?_⟩
  have hc1 : (tocTreeWith zwspLe
      [⟨"a\u200bb.html", "a\u200bb.md", "z", 0⟩, ⟨"ab.html", "ab.md", "a", 0⟩]).children
      = [TreeNode.mk "a\u200bb.html" "a\u200bb.html" []
          (some ⟨"a\u200bb.html", "a\u200bb.md", "z", 0⟩),
         TreeNode.mk "ab.html" "ab.html" [] (some ⟨"ab.html", "ab.md", "a", 0⟩)] := rfl
  have hc2 : (tocTreeWith zwspLe
      [⟨"ab.html", "ab.md", "a", 0⟩, ⟨"a\u200bb.html", "a\u200bb.md", "z", 0⟩]).children
      = [TreeNode.mk "ab.html" "ab.html" [] (some ⟨"ab.html", "ab.md", "a", 0⟩),
         TreeNode.mk "a\u200bb.html" "a\u200bb.html" []
          (some ⟨"a\u200bb.html", "a\u200bb.md", "z", 0⟩)] := rfl
  have h1 : generateTocHtmlWith zwspLe
      [⟨"a\u200bb.html", "a\u200bb.md", "z", 0⟩, ⟨"ab.html", "ab.md", "a", 0⟩]
      = tocPage (fileLi ⟨"a\u200bb.html", "a\u200bb.md", "z", 0⟩
          ++ fileLi ⟨"ab.html", "ab.md", "a", 0⟩) 2 := by
    simp only [generateTocHtmlWith, innerTreeHtml, hc1, List.map_cons, List.map_nil, renderNode]
    rw [join_two]
    rfl
  have h2 : generateTocHtmlWith zwspLe
      [⟨"ab.html", "ab.md", "a", 0⟩, ⟨"a\u200bb.html", "a\u200bb.md", "z", 0⟩]
      = tocPage (fileLi ⟨"ab.html", "ab.md", "a", 0⟩
          ++ fileLi ⟨"a\u200bb.html", "a\u200bb.md", "z", 0⟩) 2 := by
    simp only [generateTocHtmlWith, innerTreeHtml, hc2, List.map_cons, List.map_nil, renderNode]
    rw [join_two]
    rfl
  intro heq
  rw [h1, h2] at heq
  have hin := tocPage_inner_inj heq
  exact absurd hin (by decide)


/-! ### Tree-shape invariants of the Tree Builder -/

/-- Proper segment-prefix relation between segment lists. -/
def ProperPref (a b : List String) : Prop := a <+: b ∧ a ≠ b

instance : DecidableRel ProperPref := fun a b => by unfold ProperPref; infer_instance

/-- A family of segment paths is segment-prefix-free when no member is a
proper prefix of another. -/
def SegPrefixFree (S : List (List String)) : Prop :=
  S.Pairwise (fun a b => ¬ ProperPref a b ∧ ¬ ProperPref b a)

instance : DecidablePred SegPrefixFree := fun S => by unfold SegPrefixFree; infer_instance

/-- A node carrying a page has no children (it is exactly one of file and
directory), recursively. -/
inductive NoBoth : TreeNode → Prop where
  | mk : ∀ (n p : String) (cs : List TreeNode) (pg : Option PageInfo),
      (pg.isSome = true → cs = []) → (∀ c ∈ cs, NoBoth c) → NoBoth (.mk n p cs pg)

/-- Children carry pairwise distinct names, recursively. -/
inductive NodupTree : TreeNode → Prop where
  | mk : ∀ (n p : String) (cs : List TreeNode) (pg : Option PageInfo),
      (cs.map TreeNode.name).Nodup → (∀ c ∈ cs, NodupTree c) → NodupTree (.mk n p cs pg)

/-- Paths of `S` that enter a child named `a`, with that first segment
stripped. -/
def sel (a : String) (S : List (List String)) : List (List String) :=
  S.filterMap (fun σ => match σ with
    | [] => none
    | x :: rest => if x = a then some rest else none)

theorem mem_sel {a : String} {S : List (List String)} {τ : List String} :
    τ ∈ sel a S ↔ (a :: τ) ∈ S := by
  unfold sel
  rw [List.mem_filterMap]
  constructor
  · rintro ⟨σ, hσ, hf⟩
    match σ with
    | [] => simp at hf
    | x :: rest =>
      change (if x = a then some rest else none) = some τ at hf
      by_cases hx : x = a
      · rw [if_pos hx] at hf
        cases hf
        subst hx
        exact hσ
      · rw [if_neg hx] at hf
        cases hf
  · intro h
    exact ⟨a :: τ, h, by simp⟩

theorem sel_mono {a : String} {S S' : List (List String)} (h : S ⊆ S') :
    sel a S ⊆ sel a S' := by
  intro τ hτ
  exact mem_sel.mpr (h (mem_sel.mp hτ))

theorem sel_cons_self (a : String) (τ : List String) (S : List (List String)) :
    sel a ((a :: τ) :: S) = τ :: sel a S := by
  simp [sel]

/-- Invariant carried through tree building, relative to the collection
`S` of inserted segment paths: a child holds a page only if its own path
is in `S`, holds children only if some longer path of `S` descends
through it, child names are distinct, and the same holds recursively on
the residual paths. -/
inductive Inv : List (List String) → TreeNode → Prop where
  | mk : ∀ (S : List (List String)) (n p : String) (cs : List TreeNode) (pg : Option PageInfo),
      (cs.map TreeNode.name).Nodup →
      (∀ c ∈ cs, c.page.isSome = true → [] ∈ sel c.name S) →
      (∀ c ∈ cs, c.children ≠ [] → ∃ σ ∈ sel c.name S, σ ≠ []) →
      (∀ c ∈ cs, Inv (sel c.name S) c) →
      Inv S (.mk n p cs pg)

theorem Inv.mono {S : List (List String)} {t : TreeNode} (h : Inv S t) :
    ∀ {S' : List (List String)}, S ⊆ S' → Inv S' t := by
  induction h with
  | mk S n p cs pg hnd hpg hch hrec ih =>
    intro S' hsub
    refine Inv.mk S' n p cs pg hnd ?_ ?_ ?_
    · intro c hc hps
      exact sel_mono hsub (hpg c hc hps)
    · intro c hc hne
      obtain ⟨σ, hσ, hσne⟩ := hch c hc hne
      exact ⟨σ, sel_mono hsub hσ, hσne⟩
    · intro c hc
      exact ih c hc (sel_mono hsub)

theorem inv_leaf (S : List (List String)) (n p : String) (pg : Option PageInfo) :
    Inv S (.mk n p [] pg) :=
  Inv.mk S n p [] pg (by simp) (by simp) (by simp) (by simp)

theorem insertParts_name (page : PageInfo) (ρ : List String) (pre : String) (t : TreeNode) :
    (insertParts page ρ pre t).name = t.name := by
  cases ρ with
  | nil => rfl
  | cons x r =>
    cases t with
    | mk n p cs pg =>
      simp only [insertParts]
      split_ifs <;> rfl

theorem insertParts_page (page : PageInfo) (ρ : List String) (pre : String) (t : TreeNode) :
    (insertParts page ρ pre t).page = t.page := by
  cases ρ with
  | nil => rfl
  | cons x r =>
    cases t with
    | mk n p cs pg =>
      simp only [insertParts]
      split_ifs <;> rfl

theorem replaceFirst_map_name (nm : String) (f : TreeNode → TreeNode)
    (hf : ∀ t, (f t).name = t.name) (cs : List TreeNode) :
    (replaceFirst nm f cs).map TreeNode.name = cs.map TreeNode.name := by
  induction cs with
  | nil => rfl
  | cons c cs ih =>
    simp only [replaceFirst]
    split_ifs with h
    · simp [hf]
    · simp [ih]

theorem replaceFirst_mem {nm : String} {f : TreeNode → TreeNode} {cs : List TreeNode}
    {c' : TreeNode} (h : c' ∈ replaceFirst nm f cs) :
    c' ∈ cs ∨ ∃ c0, c0 ∈ cs ∧ c0.name = nm ∧ c' = f c0 := by
  induction cs with
  | nil => simp [replaceFirst] at h
  | cons c cs ih =>
    by_cases hc : c.name = nm
    · rw [replaceFirst, if_pos hc] at h
      rcases List.mem_cons.mp h with rfl | h2
      · exact Or.inr ⟨c, List.mem_cons_self c cs, hc, rfl⟩
      · exact Or.inl (List.mem_cons_of_mem c h2)
    · rw [replaceFirst, if_neg hc] at h
      rcases List.mem_cons.mp h with rfl | h2
      · exact Or.inl (List.mem_cons_self c' cs)
      · rcases ih h2 with h3 | ⟨c0, hc0, hn, he⟩
        · exact Or.inl (List.mem_cons_of_mem c h3)
        · exact Or.inr ⟨c0, List.mem_cons_of_mem c hc0, hn, he⟩

theorem hasChild_false_not_mem {nm : String} {cs : List TreeNode}
    (h : hasChild nm cs = false) : nm ∉ cs.map TreeNode.name := by
  intro hmem
  rw [List.mem_map] at hmem
  obtain ⟨c, hc, hn⟩ := hmem
  rw [hasChild, List.any_eq_false] at h
  exact absurd (by simpa using hn) (by simpa using h c hc)


theorem insertParts_cons (page : PageInfo) (part : String) (rest : List String)
    (pre : String) (n p : String) (cs : List TreeNode) (pg : Option PageInfo) :
    insertParts page (part :: rest) pre (.mk n p cs pg)
      = if hasChild part cs then
          (if rest.isEmpty then TreeNode.mk n p cs pg
           else TreeNode.mk n p
             (replaceFirst part
               (insertParts page rest (if pre = "" then part else pre ++ "/" ++ part)) cs) pg)
        else
          TreeNode.mk n p
            (cs ++ [insertParts page rest (if pre = "" then part else pre ++ "/" ++ part)
              (TreeNode.mk part (if pre = "" then part else pre ++ "/" ++ part) []
                (if rest.isEmpty then some page else none))]) pg := rfl

theorem inv_insert (ρ : List String) (page : PageInfo) :
    ∀ (pre : String) (t : TreeNode) (S : List (List String)),
      Inv S t → Inv (ρ :: S) (insertParts page ρ pre t) := by
  induction ρ with
  | nil =>
    intro pre t S h
    exact h.mono (List.subset_cons_of_subset _ (List.Subset.refl _))
  | cons part rest ih =>
    intro pre t S h
    cases h with
    | mk S n p cs pg hnd hpg hch hrec =>
      rw [insertParts_cons]
      generalize (if pre = "" then part else pre ++ "/" ++ part) = full
      by_cases hhc : hasChild part cs = true
      · rw [if_pos hhc]
        by_cases hre : rest.isEmpty
        · rw [if_pos hre]
          exact (Inv.mk S n p cs pg hnd hpg hch hrec).mono (List.subset_cons_of_subset _ (List.Subset.refl _))
        · rw [if_neg hre]
          have hre' : rest ≠ [] := by
            intro he
            rw [he] at hre
            simp at hre
          refine Inv.mk _ n p _ pg ?_ ?_ ?_ ?_
          · rw [replaceFirst_map_name part _ (fun t => insertParts_name page rest full t)]
            exact hnd
          · intro c' hc' hps
            rcases replaceFirst_mem hc' with hin | ⟨c0, hc0, hn0, he0⟩
            · exact sel_mono (List.subset_cons_of_subset _ (List.Subset.refl _)) (hpg c' hin hps)
            · subst he0
              rw [insertParts_name, hn0]
              rw [insertParts_page] at hps
              have h1 := hpg c0 hc0 hps
              rw [hn0] at h1
              exact sel_mono (List.subset_cons_of_subset _ (List.Subset.refl _)) h1
          · intro c' hc' hne
            rcases replaceFirst_mem hc' with hin | ⟨c0, hc0, hn0, he0⟩
            · obtain ⟨σ, hσ, hσne⟩ := hch c' hin hne
              exact ⟨σ, sel_mono (List.subset_cons_of_subset _ (List.Subset.refl _)) hσ, hσne⟩
            · subst he0
              rw [insertParts_name, hn0]
              exact ⟨rest, mem_sel.mpr (List.mem_cons_self _ _), hre'⟩
          · intro c' hc'
            rcases replaceFirst_mem hc' with hin | ⟨c0, hc0, hn0, he0⟩
            · exact (hrec c' hin).mono (sel_mono (List.subset_cons_of_subset _ (List.Subset.refl _)))
            · subst he0
              rw [insertParts_name, hn0, sel_cons_self]
              refine ih full c0 (sel part S) ?_
              have := hrec c0 hc0
              rw [hn0] at this
              exact this
      · rw [if_neg hhc]
        have hnm : part ∉ cs.map TreeNode.name :=
          hasChild_false_not_mem (Bool.not_eq_true _ ▸ hhc)
        have hname : (insertParts page rest full
            (TreeNode.mk part full [] (if rest.isEmpty then some page else none))).name = part :=
          insertParts_name page rest full _
        have hpage : (insertParts page rest full
            (TreeNode.mk part full [] (if rest.isEmpty then some page else none))).page
              = (if rest.isEmpty then some page else none) :=
          insertParts_page page rest full _
        refine Inv.mk _ n p _ pg ?_ ?_ ?_ ?_
        · rw [List.map_append]
          refine List.Nodup.append hnd (by simp) ?_
          intro a ha hb
          simp only [List.map_cons, List.map_nil, List.mem_singleton, hname] at hb
          subst hb
          exact hnm ha
        · intro c' hc' hps
          rcases List.mem_append.mp hc' with hin | hin
          · exact sel_mono (List.subset_cons_of_subset _ (List.Subset.refl _)) (hpg c' hin hps)
          · rw [List.mem_singleton] at hin
            subst hin
            rw [hname]
            rw [hpage] at hps
            by_cases hre : rest.isEmpty
            · have hre0 : rest = [] := List.isEmpty_iff.mp hre
              subst hre0
              exact mem_sel.mpr (List.mem_cons_self _ _)
            · rw [if_neg hre] at hps
              simp at hps
        · intro c' hc' hne
          rcases List.mem_append.mp hc' with hin | hin
          · obtain ⟨σ, hσ, hσne⟩ := hch c' hin hne
            exact ⟨σ, sel_mono (List.subset_cons_of_subset _ (List.Subset.refl _)) hσ, hσne⟩
          · rw [List.mem_singleton] at hin
            subst hin
            by_cases hrr : rest = []
            · subst hrr
              exact absurd rfl hne
            · rw [hname]
              exact ⟨rest, mem_sel.mpr (List.mem_cons_self _ _), hrr⟩
        · intro c' hc'
          rcases List.mem_append.mp hc' with hin | hin
          · exact (hrec c' hin).mono (sel_mono (List.subset_cons_of_subset _ (List.Subset.refl _)))
          · rw [List.mem_singleton] at hin
            subst hin
            rw [hname, sel_cons_self]
            exact ih full _ (sel part S) (inv_leaf _ _ _ _)


theorem inv_buildTree_aux (pages : List PageInfo) :
    ∀ (t : TreeNode) (S : List (List String)), Inv S t →
      Inv ((pages.map (fun p => pathParts p.path)).reverse ++ S)
        (pages.foldl (fun t pg => insertParts pg (pathParts pg.path) "" t) t) := by
  induction pages with
  | nil =>
    intro t S h
    simpa using h
  | cons p ps ih =>
    intro t S h
    simp only [List.foldl_cons, List.map_cons, List.reverse_cons]
    rw [List.append_assoc]
    exact ih _ _ (inv_insert (pathParts p.path) p "" t S h)

theorem foldl_insert_page (pages : List PageInfo) :
    ∀ (t : TreeNode),
      (pages.foldl (fun t pg => insertParts pg (pathParts pg.path) "" t) t).page = t.page := by
  induction pages with
  | nil => intro t; rfl
  | cons p ps ih =>
    intro t
    rw [List.foldl_cons, ih, insertParts_page]

theorem properPref_cons {x : String} {a b : List String} :
    ProperPref (x :: a) (x :: b) ↔ ProperPref a b := by
  unfold ProperPref
  rw [List.cons_prefix_cons]
  simp

theorem segPrefixFree_sel {a : String} {S : List (List String)}
    (h : SegPrefixFree S) : SegPrefixFree (sel a S) := by
  induction S with
  | nil => exact List.Pairwise.nil
  | cons σ S ih =>
    have h2 := (List.pairwise_cons.mp h).2
    have h1 := (List.pairwise_cons.mp h).1
    match σ with
    | [] =>
      show SegPrefixFree (sel a ([] :: S))
      have hsel : sel a ([] :: S) = sel a S := by simp [sel]
      rw [hsel]
      exact ih h2
    | x :: rest =>
      by_cases hx : x = a
      · subst hx
        rw [sel_cons_self]
        refine List.pairwise_cons.mpr ⟨?_, ih h2⟩
        intro τ hτ
        have hmem : (x :: τ) ∈ S := mem_sel.mp hτ
        have := h1 (x :: τ) hmem
        exact ⟨fun hp => this.1 (properPref_cons.mpr hp),
               fun hp => this.2 (properPref_cons.mpr hp)⟩
      · have hsel : sel a ((x :: rest) :: S) = sel a S := by
          simp [sel, hx]
        rw [hsel]
        exact ih h2

theorem pairwiseSymm_pp {x y : List String}
    (h : ¬ ProperPref x y ∧ ¬ ProperPref y x) :
    ¬ ProperPref y x ∧ ¬ ProperPref x y :=
  ⟨h.2, h.1⟩

theorem inv_children_noBoth {t : TreeNode} {S : List (List String)} (h : Inv S t) :
    SegPrefixFree S → ∀ c ∈ t.children, NoBoth c := by
  induction h with
  | mk S n p cs pg hnd hpg hch hrec ih =>
    intro hpf c hc
    cases c with
    | mk cn cp ccs cpg =>
      refine NoBoth.mk cn cp ccs cpg ?_ ?_
      · intro hsome
        by_contra hne
        have h1 := hpg _ hc (by simpa [TreeNode.page] using hsome)
        obtain ⟨σ, hσ, hσne⟩ := hch _ hc (by simpa [TreeNode.children] using hne)
        have hpf' : SegPrefixFree (sel (TreeNode.name (TreeNode.mk cn cp ccs cpg)) S) :=
          segPrefixFree_sel hpf
        have hboth := List.Pairwise.forall
          (fun x y hxy => pairwiseSymm_pp hxy) hpf' h1 hσ (fun he => hσne he.symm)
        exact hboth.1 ⟨List.nil_prefix, fun he => hσne he.symm⟩
      · intro c' hc'
        exact ih _ hc (segPrefixFree_sel hpf) c' hc'

theorem inv_children_nodupTree {t : TreeNode} {S : List (List String)} (h : Inv S t) :
    ∀ c ∈ t.children, NodupTree c := by
  induction h with
  | mk S n p cs pg hnd hpg hch hrec ih =>
    intro c hc
    cases hcc : c with
    | mk cn cp ccs cpg =>
      refine NodupTree.mk cn cp ccs cpg ?_ ?_
      · have := hrec c hc
        rw [hcc] at this
        cases this with
        | mk _ _ _ _ _ hnd' _ _ _ => exact hnd'
      · intro c' hc'
        have := ih c hc
        rw [hcc] at this
        exact this c' hc'


/-- C3 (amended): after inserting every page, each directory's children
carry pairwise distinct names (unconditionally — repeated insertion of a
path segment reuses the existing child), and, provided no page's segment
list is a proper prefix of another page's segment list, every node is
exactly one of directory (no page) or file (page, no children). The
prefix-freeness hypothesis is forced: see the counterexample. -/
theorem tree_build_invariants (pages : List PageInfo) :
    NodupTree (buildTree pages)
    ∧ (SegPrefixFree (pages.map (fun p => pathParts p.path)) → NoBoth (buildTree pages)) := by
  have hInv : Inv ((pages.map (fun p => pathParts p.path)).reverse) (buildTree pages) := by
    have h0 := inv_buildTree_aux pages rootInit [] (inv_leaf [] "Project" "" none)
    simpa using h0
  have hpage : (buildTree pages).page = none := foldl_insert_page pages rootInit
  constructor
  · cases hb : buildTree pages with
    | mk n p cs pg =>
      rw [hb] at hInv
      refine NodupTree.mk n p cs pg ?_ ?_
      · cases hInv with
        | mk _ _ _ _ _ hnd _ _ _ => exact hnd
      · intro c hc
        exact inv_children_nodupTree hInv c hc
  · intro hpf
    have hpf' : SegPrefixFree ((pages.map (fun p => pathParts p.path)).reverse) := by
      unfold SegPrefixFree at *
      rw [List.pairwise_reverse]
      exact hpf.imp (fun h => pairwiseSymm_pp h)
    cases hb : buildTree pages with
    | mk n p cs pg =>
      rw [hb] at hInv hpage
      refine NoBoth.mk n p cs pg ?_ ?_
      · intro hs
        simp only [TreeNode.page] at hpage
        rw [hpage] at hs
        simp at hs
      · intro c hc
        exact inv_children_noBoth hInv hpf' c hc

/-- Counterexample for C3 as stated: inserting `"a"` and then `"a/b"`
makes the node `"a"` a file (it carries the first page) that also has a
child, so a node can be both file and directory when one output path is a
proper segment-prefix of another. -/
theorem file_node_with_children_counterexample :
    ((buildTree [⟨"a", "a.md", "a", 0⟩, ⟨"a/b", "a/b.md", "b", 1⟩]).children.map
        (fun c => (c.page.isSome, c.children.length))) = [(true, 1)]
    ∧ ¬ NoBoth (buildTree [⟨"a", "a.md", "a", 0⟩, ⟨"a/b", "a/b.md", "b", 1⟩]) := by
  have hb : buildTree [⟨"a", "a.md", "a", 0⟩, ⟨"a/b", "a/b.md", "b", 1⟩]
      = TreeNode.mk "Project" ""
          [TreeNode.mk "a" "a"
            [TreeNode.mk "b" "a/b" [] (some ⟨"a/b", "a/b.md", "b", 1⟩)]
            (some ⟨"a", "a.md", "a", 0⟩)] none := rfl
  refine ⟨rfl, ?_⟩
  rw [hb]
  intro h
  cases h with
  | mk n p cs pg hpgc hch =>
    have h1 := hch _ (List.mem_cons_self _ _)
    cases h1 with
    | mk n1 p1 cs1 pg1 hpgc1 hch1 =>
      have h2 := hpgc1 rfl
      simp at h2

/-- Witness for C3 at two prefix-free pages. -/
theorem tree_build_invariants_witness :
    SegPrefixFree ([(⟨"a/b.html", "a/b.md", "b", 1⟩ : PageInfo),
        ⟨"d.html", "d.md", "d", 0⟩].map (fun p => pathParts p.path))
    ∧ NodupTree (buildTree [⟨"a/b.html", "a/b.md", "b", 1⟩, ⟨"d.html", "d.md", "d", 0⟩])
    ∧ NoBoth (buildTree [⟨"a/b.html", "a/b.md", "b", 1⟩, ⟨"d.html", "d.md", "d", 0⟩]) :=
  ⟨by decide,
   (tree_build_invariants [⟨"a/b.html", "a/b.md", "b", 1⟩, ⟨"d.html", "d.md", "d", 0⟩]).1,
   (tree_build_invariants [⟨"a/b.html", "a/b.md", "b", 1⟩, ⟨"d.html", "d.md", "d", 0⟩]).2
     (by decide)⟩

end Noted
